import Mathlib

/-!
# RobotPathfinder core: trajectory lookup and quintic path construction

A shallow embedding of

* `BasicTrajectory::total_time` and `BasicTrajectory::get`
  (`src/main/cpp/src/trajectory/basictrajectory.cpp`), and
* the constructor `QuinticPath::QuinticPath`
  (`src/main/cpp/include/path/quinticpath.h`).

Conventions of the embedding.

* The C++ `double` is replaced by an arbitrary linearly ordered field `α`
  (exact, totally ordered numbers; no rounding, no NaN).  Concrete
  evaluations are done in `ℚ`.
* `std::vector` is a `List`; the `int` indices `start`, `end`, `mid` are
  natural numbers.  Every index that occurs is at most `moments.size() - 1`
  and `start + end` is at most twice that, so no `int` arithmetic wraps for
  vectors of up to `2^30` moments.
* Reading a vector outside its bounds is undefined behaviour in C++; here it
  is the explicit fault `Fault.outOfBounds`.  For an empty vector
  `moments.size() - 1` wraps around in C++ and the read is out of bounds; in
  the model the index is `0` and the read of the empty list faults likewise.
* The `while(true)` loop is run with an iteration budget (`fuel`); running
  out of it is the fault `Fault.outOfFuel`.
* `rpf::lerp`, `rpf::langle`, `std::cos` and `std::sin` are not part of the
  sources at hand and are parameters of the model.
-/

namespace rpf

/-- Ways in which a run of the model can fail to produce a value. -/
inductive Fault where
  | outOfBounds
  | outOfFuel
  deriving DecidableEq

/-- The vector read `v[i]`: a fault when `i` is not a valid index. -/
def readAt {β : Type} (v : List β) (i : Nat) : Except Fault β :=
  match v[i]? with
  | some b => Except.ok b
  | none => Except.error Fault.outOfBounds

/-- Modelled from the spec: the declaration of `BasicMoment` (its header is not
among the sources), "a single time-stamped kinematic sample (distance,
velocity, acceleration, heading, time)".  The fields are the members read by
`BasicTrajectory::get` (`dist`, `vel`, `accel`, `heading`, `time`) and the sixth
argument of the constructor call
`BasicMoment(dist, vel, accel, heading, time, init_facing)`, in that order. -/
structure BasicMoment (α : Type) where
  dist : α
  vel : α
  accel : α
  heading : α
  time : α
  init_facing : α
  deriving DecidableEq

/-- Modelled from the spec: the declaration of `BasicTrajectory` (its header is
not among the sources), restricted to the two members that `total_time` and
`get` read: the moment vector and the initial facing.  (`path`, `specs` and
`params` are not read by either function.) -/
structure BasicTrajectory (α : Type) where
  moments : List (BasicMoment α)
  init_facing : α

/-- The three `return` statements of `BasicTrajectory::get`, each with the
moments it has read: line 46 (`clamped`), line 54 (`stored mid`) and
lines 62-63 (`interp mid`). -/
inductive Branch (α : Type) where
  | clamped (last : BasicMoment α)
  | stored (mid : Nat) (cur : BasicMoment α)
  | interp (mid : Nat) (cur next : BasicMoment α)
  deriving DecidableEq

/-- Outcome of one pass through the body of the `while(true)` loop: either a
`return`, or the updated pair `(start, end)`. -/
inductive Iter (α : Type) where
  | ret (b : Branch α)
  | cont (start end_ : Nat)
  deriving DecidableEq

namespace BasicTrajectory

variable {α : Type} [LinearOrderedField α]

/-- The function `BasicTrajectory::total_time`: `moments[moments.size() - 1].time`. -/
def total_time (tr : BasicTrajectory α) : Except Fault α :=
  match readAt tr.moments (tr.moments.length - 1) with
  | Except.error e => Except.error e
  | Except.ok m => Except.ok m.time

/-- The body of the `while(true)` loop of `BasicTrajectory::get` (lines 50-70). -/
def body (moments : List (BasicMoment α)) (time : α) (start end_ : Nat) :
    Except Fault (Iter α) :=
  let mid := (start + end_) / 2
  match readAt moments mid with
  | Except.error e => Except.error e
  | Except.ok cur =>
    let mid_time := cur.time
    if mid_time = time ∨ mid = moments.length - 1 ∨ mid = 0 then
      Except.ok (Iter.ret (Branch.stored mid cur))
    else
      match readAt moments (mid + 1) with
      | Except.error e => Except.error e
      | Except.ok next =>
        let next_time := next.time
        if mid_time ≤ time ∧ next_time ≥ time then
          Except.ok (Iter.ret (Branch.interp mid cur next))
        else if mid_time < time then
          Except.ok (Iter.cont mid end_)
        else
          Except.ok (Iter.cont start mid)

/-- The `while(true)` loop of `BasicTrajectory::get`, with an iteration budget. -/
def loop (moments : List (BasicMoment α)) (time : α) :
    Nat → Nat → Nat → Except Fault (Branch α)
  | 0, _, _ => Except.error Fault.outOfFuel
  | fuel + 1, start, end_ =>
    match body moments time start end_ with
    | Except.error e => Except.error e
    | Except.ok (Iter.ret b) => Except.ok b
    | Except.ok (Iter.cont start1 end1) => loop moments time fuel start1 end1

/-- The control flow of `BasicTrajectory::get`: which `return` is reached, and
with which moments.  `start = 0`, `end = moments.size() - 1`; the clamp test of
line 45 comes first, then the loop. -/
def getBranch (fuel : Nat) (tr : BasicTrajectory α) (time : α) :
    Except Fault (Branch α) :=
  match total_time tr with
  | Except.error e => Except.error e
  | Except.ok total =>
    if time ≥ total then
      match readAt tr.moments (tr.moments.length - 1) with
      | Except.error e => Except.error e
      | Except.ok last => Except.ok (Branch.clamped last)
    else
      loop tr.moments time fuel 0 (tr.moments.length - 1)

/-- The fraction `f = (time - mid_time) / (next_time - mid_time)` of line 59. -/
def fraction (cur next : BasicMoment α) (time : α) : α :=
  (time - cur.time) / (next.time - cur.time)

/-- The moment built at lines 62-63 from the bracketing pair. -/
def synthesize (lerp langle : α → α → α → α) (init_facing : α)
    (cur next : BasicMoment α) (time : α) : BasicMoment α :=
  let f := fraction cur next time
  { dist := lerp cur.dist next.dist f
    vel := lerp cur.vel next.vel f
    accel := lerp cur.accel next.accel f
    heading := langle cur.heading next.heading f
    time := time
    init_facing := init_facing }

/-- The value returned at each `return` statement. -/
def returned (lerp langle : α → α → α → α) (init_facing : α) (time : α) :
    Branch α → BasicMoment α
  | Branch.clamped last => last
  | Branch.stored _ cur => cur
  | Branch.interp _ cur next => synthesize lerp langle init_facing cur next time

/-- The function `BasicTrajectory::get`. -/
def get (lerp langle : α → α → α → α) (fuel : Nat) (tr : BasicTrajectory α)
    (time : α) : Except Fault (BasicMoment α) :=
  match getBranch fuel tr time with
  | Except.error e => Except.error e
  | Except.ok b => Except.ok (returned lerp langle tr.init_facing time b)


end BasicTrajectory

open BasicTrajectory (body loop getBranch total_time fraction synthesize returned)

section Predicates

variable {α : Type} [LinearOrderedField α]

/-- The loop invariant of `BasicTrajectory::get`. -/
def Inv (moments : List (BasicMoment α)) (time : α) (start end_ : Nat) : Prop :=
  start ≤ end_ ∧ (∃ m, moments[end_]? = some m ∧ time < m.time) ∧
    (start = 0 ∨ ∃ m, moments[start]? = some m ∧ m.time < time)

/-- What `BasicTrajectory::get` has established when its loop returns. -/
def Post (moments : List (BasicMoment α)) (time : α) : Branch α → Prop
  | Branch.clamped _ => False
  | Branch.stored mid cur =>
      moments[mid]? = some cur ∧
        (cur.time = time ∨
          (mid = 0 ∧ ∃ e m, e ≤ 1 ∧ moments[e]? = some m ∧ time < m.time))
  | Branch.interp mid cur nxt =>
      1 ≤ mid ∧ moments[mid]? = some cur ∧ moments[mid + 1]? = some nxt ∧
        cur.time < time ∧ time ≤ nxt.time

/-- Times strictly increasing along the moment vector. -/
def StrictlyIncreasing (moments : List (BasicMoment α)) : Prop :=
  List.Pairwise (fun a b => a.time < b.time) moments

/-- Times non-decreasing along the moment vector. -/
def NonDecreasing (moments : List (BasicMoment α)) : Prop :=
  List.Pairwise (fun a b => a.time ≤ b.time) moments

end Predicates

/-- Modelled from the spec: `rpf::lerp` (its header is not among the sources),
the linear interpolation `a + (b - a) * f`.  Used only to instantiate the
`lerp` and `langle` parameters at concrete inputs. -/
def lerp {α : Type} [LinearOrderedField α] (a b f : α) : α :=
  a + (b - a) * f

/-- Modelled from the spec: the declaration of `Vec2D` (its header is not among
the sources), a 2D vector built as `Vec2D(x, y)`. -/
structure Vec2D (α : Type) where
  x : α
  y : α
  deriving DecidableEq

/-- Modelled from the spec: the declaration of `Waypoint` (its header is not
among the sources), "position (x, y) + heading (radians)".  Only the members
the `QuinticPath` constructor reads are kept. -/
structure Waypoint (α : Type) where
  x : α
  y : α
  heading : α
  deriving DecidableEq

/-- The conversion `static_cast<Vec2D>(waypoint)`: the position of the waypoint. -/
def Waypoint.toVec2D {α : Type} (w : Waypoint α) : Vec2D α :=
  { x := w.x, y := w.y }

/-- Modelled from the spec: the declaration of `QuinticSegment` (its header is
not among the sources).  A segment is recorded as the six arguments of its
constructor call, in order: start position, end position, start tangent, end
tangent, start and end second derivative. -/
structure QuinticSegment (α : Type) where
  p0 : Vec2D α
  p1 : Vec2D α
  v0 : Vec2D α
  v1 : Vec2D α
  a0 : Vec2D α
  a1 : Vec2D α
  deriving DecidableEq

/-- The enumerator of `PathType` that the `QuinticPath` constructor assigns. -/
inductive PathType where
  | CUBIC_HERMITE
  deriving DecidableEq

/-- The exception thrown by the `QuinticPath` constructor: a
`std::runtime_error` with its message. -/
inductive Exn where
  | runtime_error (what : String)
  deriving DecidableEq

/-- The members of `Path` that the `QuinticPath` constructor sets. -/
structure QuinticPath (α : Type) where
  waypoints : List (Waypoint α)
  alpha : α
  type : PathType
  segments : List (QuinticSegment α)
  deriving DecidableEq

namespace QuinticPath

variable {α : Type} [LinearOrderedField α]

/-- The segment pushed at lines 26-31 for the waypoint pair
`(waypoints[i], waypoints[i + 1])`. -/
def segment (cos sin : α → α) (alpha : α) (a b : Waypoint α) : QuinticSegment α :=
  { p0 := a.toVec2D
    p1 := b.toVec2D
    v0 := { x := cos a.heading * alpha, y := sin a.heading * alpha }
    v1 := { x := cos b.heading * alpha, y := sin b.heading * alpha }
    a0 := { x := 0, y := 0 }
    a1 := { x := 0, y := 0 } }

/-- The `for` loop of lines 22-32: one `push_back` for each
`i = 0, ..., waypoints.size() - 2`, in this order.  (The three writes to
`std::cout` are not modelled.) -/
def build (cos sin : α → α) (waypoints : List (Waypoint α)) (alpha : α) :
    List (QuinticSegment α) :=
  List.ofFn (fun i : Fin (waypoints.length - 1) =>
    segment cos sin alpha (waypoints.get ⟨i.val, by omega⟩)
      (waypoints.get ⟨i.val + 1, by omega⟩))

/-- The constructor `QuinticPath::QuinticPath(waypoints, alpha)`: the `throw` of
line 19 is the error result, otherwise the constructed path. -/
def new (cos sin : α → α) (waypoints : List (Waypoint α)) (alpha : α) :
    Except Exn (QuinticPath α) :=
  if waypoints.length < 2 then
    Except.error (Exn.runtime_error "Not enough waypoints")
  else
    Except.ok
      { waypoints := waypoints
        alpha := alpha
        type := PathType.CUBIC_HERMITE
        segments := build cos sin waypoints alpha }

end QuinticPath

/-! ## Concrete inputs -/

/-- The example trajectory of the specification: moments
`(d=0,v=0,a=1,h=0,t=0)`, `(d=5,v=2,a=0,h=0,t=2)`, `(d=10,v=0,a=-1,h=0,t=4)`. -/
def specExample : BasicTrajectory ℚ :=
  { moments := [⟨0, 0, 1, 0, 0, 0⟩, ⟨5, 2, 0, 0, 2, 0⟩, ⟨10, 0, -1, 0, 4, 0⟩]
    init_facing := 0 }

/-- A trajectory with non-decreasing times in which two moments have time 0. -/
def tiedStart : BasicTrajectory ℚ :=
  { moments := [⟨0, 0, 1, 0, 0, 0⟩, ⟨1, 1, 1, 0, 0, 0⟩, ⟨2, 2, 0, 0, 1, 0⟩]
    init_facing := 0 }

/-- Four samples at times 0, 1, 2, 3. -/
def fourSamples : BasicTrajectory ℚ :=
  { moments := [⟨0, 0, 1, 0, 0, 0⟩, ⟨1, 1, 1, 0, 1, 0⟩, ⟨2, 2, 1, 0, 2, 0⟩, ⟨3, 3, 0, 0, 3, 0⟩]
    init_facing := 0 }

/-- Three waypoints on the x axis, all with heading 0. -/
def straightLine : List (Waypoint ℚ) :=
  [⟨0, 0, 0⟩, ⟨10, 0, 0⟩, ⟨20, 0, 0⟩]

/-- The value of `std::cos` at heading 0, the only heading in `straightLine`. -/
def cosAtZero : ℚ → ℚ := fun _ => 1

/-- The value of `std::sin` at heading 0, the only heading in `straightLine`. -/
def sinAtZero : ℚ → ℚ := fun _ => 0

/-! ## Auxiliary lemmas -/

variable {α : Type} [LinearOrderedField α]

theorem readAt_of_some {β : Type} {v : List β} {i : Nat} {b : β} (h : v[i]? = some b) :
    readAt v i = Except.ok b := by
  simp [readAt, h]

theorem body_stored {ms : List (BasicMoment α)} {time : α} {s e : Nat} {cur : BasicMoment α}
    (hc : ms[(s + e) / 2]? = some cur)
    (h : cur.time = time ∨ (s + e) / 2 = ms.length - 1 ∨ (s + e) / 2 = 0) :
    body ms time s e = Except.ok (Iter.ret (Branch.stored ((s + e) / 2) cur)) := by
  simp only [body, readAt_of_some hc, if_pos h]

theorem body_interp {ms : List (BasicMoment α)} {time : α} {s e : Nat} {cur nxt : BasicMoment α}
    (hc : ms[(s + e) / 2]? = some cur) (hn : ms[(s + e) / 2 + 1]? = some nxt)
    (h : ¬ (cur.time = time ∨ (s + e) / 2 = ms.length - 1 ∨ (s + e) / 2 = 0))
    (h2 : cur.time ≤ time ∧ nxt.time ≥ time) :
    body ms time s e = Except.ok (Iter.ret (Branch.interp ((s + e) / 2) cur nxt)) := by
  simp only [body, readAt_of_some hc, readAt_of_some hn, if_neg h, if_pos h2]

theorem body_right {ms : List (BasicMoment α)} {time : α} {s e : Nat} {cur nxt : BasicMoment α}
    (hc : ms[(s + e) / 2]? = some cur) (hn : ms[(s + e) / 2 + 1]? = some nxt)
    (h : ¬ (cur.time = time ∨ (s + e) / 2 = ms.length - 1 ∨ (s + e) / 2 = 0))
    (h2 : ¬ (cur.time ≤ time ∧ nxt.time ≥ time)) (h3 : cur.time < time) :
    body ms time s e = Except.ok (Iter.cont ((s + e) / 2) e) := by
  simp only [body, readAt_of_some hc, readAt_of_some hn, if_neg h, if_neg h2, if_pos h3]

theorem body_left {ms : List (BasicMoment α)} {time : α} {s e : Nat} {cur nxt : BasicMoment α}
    (hc : ms[(s + e) / 2]? = some cur) (hn : ms[(s + e) / 2 + 1]? = some nxt)
    (h : ¬ (cur.time = time ∨ (s + e) / 2 = ms.length - 1 ∨ (s + e) / 2 = 0))
    (h2 : ¬ (cur.time ≤ time ∧ nxt.time ≥ time)) (h3 : ¬ cur.time < time) :
    body ms time s e = Except.ok (Iter.cont s ((s + e) / 2)) := by
  simp only [body, readAt_of_some hc, readAt_of_some hn, if_neg h, if_neg h2, if_neg h3]

theorem getElem?_of_lt {β : Type} {v : List β} {i : Nat} (h : i < v.length) :
    ∃ b, v[i]? = some b := ⟨v[i], List.getElem?_eq_getElem h⟩

theorem lt_of_getElem? {β : Type} {v : List β} {i : Nat} {b : β} (h : v[i]? = some b) :
    i < v.length := by
  rcases List.getElem?_eq_some.1 h with ⟨hi, _⟩
  exact hi

theorem body_spec {ms : List (BasicMoment α)} {time : α} {s e : Nat}
    (hinv : Inv ms time s e) :
    (∃ b, body ms time s e = Except.ok (Iter.ret b) ∧ Post ms time b) ∨
    (∃ s1 e1, body ms time s e = Except.ok (Iter.cont s1 e1) ∧ Inv ms time s1 e1 ∧
      e1 - s1 < e - s) := by
  obtain ⟨hse, ⟨me, hme, hte⟩, hs⟩ := hinv
  have hen : e < ms.length := lt_of_getElem? hme
  have hmid_le : (s + e) / 2 ≤ e := by omega
  obtain ⟨cur, hc⟩ := getElem?_of_lt (show (s + e) / 2 < ms.length by omega)
  by_cases h : cur.time = time ∨ (s + e) / 2 = ms.length - 1 ∨ (s + e) / 2 = 0
  · left
    refine ⟨_, body_stored hc h, hc, ?_⟩
    rcases h with h | h | h
    · exact Or.inl h
    · right
      have hes : s = e := by omega
      subst hes
      rcases hs with hs | ⟨m, hm, hlt⟩
      · subst hs
        exact ⟨by omega, 0, me, by omega, hme, hte⟩
      · rw [hme] at hm
        cases hm
        exact absurd hte (not_lt.2 hlt.le)
    · right
      exact ⟨h, e, me, by omega, hme, hte⟩
  · have hneg := h
    push_neg at hneg
    obtain ⟨hne, hlast, hzero⟩ := hneg
    obtain ⟨nxt, hn⟩ := getElem?_of_lt (show (s + e) / 2 + 1 < ms.length by omega)
    by_cases h2 : cur.time ≤ time ∧ nxt.time ≥ time
    · left
      exact ⟨_, body_interp hc hn h h2, by omega, hc, hn, lt_of_le_of_ne h2.1 hne, h2.2⟩
    · right
      by_cases h3 : cur.time < time
      · refine ⟨_, _, body_right hc hn h h2 h3, ⟨hmid_le, ⟨me, hme, hte⟩, Or.inr ⟨cur, hc, h3⟩⟩, ?_⟩
        have hsm : s < (s + e) / 2 := by
          by_contra hcon
          have hcase : e = s ∨ e = s + 1 := by omega
          rcases hcase with hcase | hcase
          · subst hcase
            rcases hs with hs | ⟨m, hm, hlt⟩
            · subst hs
              exact hzero (by omega)
            · rw [hme] at hm
              cases hm
              exact absurd hte (not_lt.2 hlt.le)
          · subst hcase
            have hm1 : (s + (s + 1)) / 2 + 1 = s + 1 := by omega
            rw [hm1, hme] at hn
            cases hn
            exact h2 ⟨h3.le, hte.le⟩
        omega
      · have hgt : time < cur.time := lt_of_le_of_ne (not_lt.1 h3) (Ne.symm hne)
        refine ⟨_, _, body_left hc hn h h2 h3, ⟨by omega, ⟨cur, hc, hgt⟩, hs⟩, ?_⟩
        have hmide : (s + e) / 2 < e := by
          by_contra hcon
          have hes : s = e := by omega
          subst hes
          have hm1 : (s + s) / 2 = s := by omega
          rcases hs with hs | ⟨m, hm, hlt⟩
          · subst hs
            exact hzero (by omega)
          · rw [hm1] at hc
            rw [hc] at hm
            cases hm
            exact absurd hgt (not_lt.2 hlt.le)
        omega

/-- In a state satisfying the invariant every index the body computes lies in
the vector, and `start + end` is at most `2 * (moments.size() - 1)`: the `int`
arithmetic of the source stays within range for vectors of up to `2^30`
moments. -/
theorem inv_bounds {ms : List (BasicMoment α)} {time : α} {s e : Nat}
    (hinv : Inv ms time s e) :
    s ≤ (s + e) / 2 ∧ (s + e) / 2 ≤ e ∧ e < ms.length ∧
      s + e ≤ 2 * (ms.length - 1) := by
  obtain ⟨hse, ⟨me, hme, _⟩, _⟩ := hinv
  have hen : e < ms.length := lt_of_getElem? hme
  omega

theorem loop_spec {ms : List (BasicMoment α)} {time : α} :
    ∀ (fuel s e : Nat), Inv ms time s e → e - s < fuel →
      ∃ b, loop ms time fuel s e = Except.ok b ∧ Post ms time b := by
  intro fuel
  induction fuel with
  | zero => intro s e _ h; omega
  | succ fuel ih =>
    intro s e hinv hfuel
    rcases body_spec hinv with ⟨b, hb, hpost⟩ | ⟨s1, e1, hb, hinv1, hdec⟩
    · exact ⟨b, by simp only [loop, hb], hpost⟩
    · obtain ⟨b, hb1, hpost⟩ := ih s1 e1 hinv1 (by omega)
      exact ⟨b, by simp only [loop, hb, hb1], hpost⟩

theorem pairwise_at {β : Type} {R : β → β → Prop} {v : List β} (h : List.Pairwise R v)
    {i j : Nat} {a b : β} (hi : v[i]? = some a) (hj : v[j]? = some b) (hij : i < j) :
    R a b := by
  rcases List.getElem?_eq_some.1 hi with ⟨hi1, rfl⟩
  rcases List.getElem?_eq_some.1 hj with ⟨hj1, rfl⟩
  exact List.pairwise_iff_getElem.1 h i j hi1 hj1 hij

theorem same_at {β : Type} {v : List β} {i j : Nat} {a b : β}
    (hi : v[i]? = some a) (hj : v[j]? = some b) (hij : i = j) : a = b := by
  subst hij
  rw [hi] at hj
  exact Option.some.inj hj

theorem strict_le {ms : List (BasicMoment α)} (h : StrictlyIncreasing ms)
    {i j : Nat} {a b : BasicMoment α} (hi : ms[i]? = some a) (hj : ms[j]? = some b)
    (hij : i ≤ j) : a.time ≤ b.time := by
  rcases Nat.eq_or_lt_of_le hij with heq | hlt
  · rw [same_at hi hj heq]
  · exact (pairwise_at h hi hj hlt).le

theorem strict_index_lt {ms : List (BasicMoment α)} (h : StrictlyIncreasing ms)
    {i j : Nat} {a b : BasicMoment α} (hi : ms[i]? = some a) (hj : ms[j]? = some b)
    (hab : a.time < b.time) : i < j := by
  by_contra hcon
  exact absurd hab (not_lt.2 (strict_le h hj hi (by omega)))

theorem strict_index_le {ms : List (BasicMoment α)} (h : StrictlyIncreasing ms)
    {i j : Nat} {a b : BasicMoment α} (hi : ms[i]? = some a) (hj : ms[j]? = some b)
    (hab : a.time ≤ b.time) : i ≤ j := by
  by_contra hcon
  exact absurd hab (not_le.2 (pairwise_at h hj hi (by omega)))

theorem last_at {β : Type} {v : List β} (hne : v ≠ []) :
    v[v.length - 1]? = some (v.getLast hne) := by
  rw [List.getLast_eq_getElem]
  exact List.getElem?_eq_getElem _

omit [LinearOrderedField α] in
theorem total_time_eq {tr : BasicTrajectory α} {last : BasicMoment α}
    (hl : tr.moments[tr.moments.length - 1]? = some last) :
    total_time tr = Except.ok last.time := by
  simp only [total_time, readAt_of_some hl]

theorem getBranch_clamped {tr : BasicTrajectory α} {last : BasicMoment α} {time : α}
    (fuel : Nat) (hl : tr.moments[tr.moments.length - 1]? = some last)
    (h : time ≥ last.time) :
    getBranch fuel tr time = Except.ok (Branch.clamped last) := by
  simp only [getBranch, total_time_eq hl, readAt_of_some hl, if_pos h]

theorem getBranch_loop {tr : BasicTrajectory α} {last : BasicMoment α} {time : α}
    (fuel : Nat) (hl : tr.moments[tr.moments.length - 1]? = some last)
    (h : time < last.time) :
    getBranch fuel tr time = loop tr.moments time fuel 0 (tr.moments.length - 1) := by
  simp only [getBranch, total_time_eq hl, if_neg (not_le.2 h)]

theorem inv_init {tr : BasicTrajectory α} {last : BasicMoment α} {time : α}
    (hl : tr.moments[tr.moments.length - 1]? = some last) (h : time < last.time) :
    Inv tr.moments time 0 (tr.moments.length - 1) :=
  ⟨Nat.zero_le _, ⟨last, hl, h⟩, Or.inl rfl⟩

theorem getBranch_post {tr : BasicTrajectory α} {last : BasicMoment α} {time : α}
    {fuel : Nat} (hl : tr.moments[tr.moments.length - 1]? = some last)
    (h : time < last.time) (hfuel : tr.moments.length ≤ fuel) :
    ∃ b, getBranch fuel tr time = Except.ok b ∧ Post tr.moments time b := by
  rw [getBranch_loop fuel hl h]
  have hlen := lt_of_getElem? hl
  exact loop_spec fuel 0 _ (inv_init hl h) (by omega)

theorem get_of_branch {lerp langle : α → α → α → α} {fuel : Nat} {tr : BasicTrajectory α}
    {time : α} {b : Branch α} (h : getBranch fuel tr time = Except.ok b) :
    BasicTrajectory.get lerp langle fuel tr time =
      Except.ok (returned lerp langle tr.init_facing time b) := by
  simp only [BasicTrajectory.get, h]

/-- C1: for a non-empty moment vector and a query time at or after the time of
the last moment, `total_time` is the time of the last moment and `get` returns
the last moment itself, whatever the iteration budget. -/
theorem get_clamps_to_last (lerp langle : α → α → α → α) (fuel : Nat)
    (tr : BasicTrajectory α) (time : α) (hne : tr.moments ≠ [])
    (h : time ≥ (tr.moments.getLast hne).time) :
    total_time tr = Except.ok (tr.moments.getLast hne).time ∧
      BasicTrajectory.get lerp langle fuel tr time = Except.ok (tr.moments.getLast hne) := by
  have hl := last_at hne
  exact ⟨total_time_eq hl, by rw [get_of_branch (getBranch_clamped fuel hl h)]; rfl⟩

/-- C2: with strictly increasing times, `1 ≤ i ≤ n - 2` and
`moments[i].time < time < moments[i+1].time`, the search returns at the
interpolation branch with `mid = i`, and `get` returns the moment synthesized
from `moments[i]` and `moments[i+1]` at the fraction
`(time - moments[i].time) / (moments[i+1].time - moments[i].time)`. -/
theorem get_interpolates_bracket (lerp langle : α → α → α → α) (fuel : Nat)
    (tr : BasicTrajectory α) (time : α) (i : Nat) (cur nxt : BasicMoment α)
    (hsorted : StrictlyIncreasing tr.moments) (hlen : 3 ≤ tr.moments.length)
    (hi : 1 ≤ i) (hi2 : i ≤ tr.moments.length - 2)
    (hc : tr.moments[i]? = some cur) (hx : tr.moments[i + 1]? = some nxt)
    (hlo : cur.time < time) (hhi : time < nxt.time)
    (hfuel : tr.moments.length ≤ fuel) :
    getBranch fuel tr time = Except.ok (Branch.interp i cur nxt) ∧
      BasicTrajectory.get lerp langle fuel tr time = Except.ok
        { dist := lerp cur.dist nxt.dist ((time - cur.time) / (nxt.time - cur.time))
          vel := lerp cur.vel nxt.vel ((time - cur.time) / (nxt.time - cur.time))
          accel := lerp cur.accel nxt.accel ((time - cur.time) / (nxt.time - cur.time))
          heading := langle cur.heading nxt.heading ((time - cur.time) / (nxt.time - cur.time))
          time := time
          init_facing := tr.init_facing } := by
  have hne : tr.moments ≠ [] := by
    intro h0
    rw [h0] at hlen
    simp at hlen
  have hl := last_at hne
  have hlast : time < (tr.moments.getLast hne).time :=
    lt_of_lt_of_le hhi (strict_le hsorted hx hl (by have := lt_of_getElem? hx; omega))
  obtain ⟨b, hb, hpost⟩ := getBranch_post hl hlast hfuel
  have hbi : b = Branch.interp i cur nxt := by
    cases b with
    | clamped m => exact hpost.elim
    | stored mid m =>
      obtain ⟨hm, hcase⟩ := hpost
      exfalso
      rcases hcase with heq | ⟨hz, e, me, he, hme, hlt⟩
      · have h1 : i < mid := strict_index_lt hsorted hc hm (by rw [heq]; exact hlo)
        have h2 : mid < i + 1 := strict_index_lt hsorted hm hx (by rw [heq]; exact hhi)
        omega
      · have h1 : i < e := strict_index_lt hsorted hc hme (lt_trans hlo hlt)
        omega
    | interp mid m1 m2 =>
      obtain ⟨_, hm1, hm2, hlt, hle⟩ := hpost
      have h1 : mid < i + 1 := strict_index_lt hsorted hm1 hx (lt_trans hlt hhi)
      have h2 : i < mid + 1 := strict_index_lt hsorted hc hm2 (lt_of_lt_of_le hlo hle)
      have hmi : mid = i := by omega
      subst hmi
      rw [same_at hm1 hc rfl, same_at hm2 hx rfl]
  subst hbi
  exact ⟨hb, by rw [get_of_branch hb]; rfl⟩

/-- With strictly increasing times, every query strictly between the times of
the first two moments makes the search end at `mid = 0`: `get` returns the
stored first moment, not an interpolated one. -/
theorem get_first_interval (lerp langle : α → α → α → α) (fuel : Nat)
    (tr : BasicTrajectory α) (time : α) (first second : BasicMoment α)
    (hsorted : StrictlyIncreasing tr.moments)
    (h0 : tr.moments[0]? = some first) (h1 : tr.moments[1]? = some second)
    (hlo : first.time < time) (hhi : time < second.time)
    (hfuel : tr.moments.length ≤ fuel) :
    getBranch fuel tr time = Except.ok (Branch.stored 0 first) ∧
      BasicTrajectory.get lerp langle fuel tr time = Except.ok first := by
  have hne : tr.moments ≠ [] := by
    intro hnil
    rw [hnil] at h0
    simp at h0
  have hl := last_at hne
  have hlast : time < (tr.moments.getLast hne).time :=
    lt_of_lt_of_le hhi (strict_le hsorted h1 hl (by have := lt_of_getElem? h1; omega))
  obtain ⟨b, hb, hpost⟩ := getBranch_post hl hlast hfuel
  have hbi : b = Branch.stored 0 first := by
    cases b with
    | clamped m => exact hpost.elim
    | stored mid m =>
      obtain ⟨hm, hcase⟩ := hpost
      rcases hcase with heq | ⟨hz, _⟩
      · exfalso
        have h2 : 0 < mid := strict_index_lt hsorted h0 hm (by rw [heq]; exact hlo)
        have h3 : mid < 1 := strict_index_lt hsorted hm h1 (by rw [heq]; exact hhi)
        omega
      · subst hz
        rw [same_at hm h0 rfl]
    | interp mid m1 m2 =>
      obtain ⟨hmid, hm1, _, hlt, _⟩ := hpost
      exfalso
      have h2 : mid < 1 := strict_index_lt hsorted hm1 h1 (lt_trans hlt hhi)
      omega
  subst hbi
  exact ⟨hb, by rw [get_of_branch hb]; rfl⟩

/-- C4 (amended): with non-decreasing times, a first moment at time 0 and no
other moment at time 0, `get(0)` returns the first moment itself. -/
theorem get_zero_returns_first (lerp langle : α → α → α → α) (fuel : Nat)
    (tr : BasicTrajectory α) (first : BasicMoment α)
    (hsorted : NonDecreasing tr.moments)
    (h0 : tr.moments[0]? = some first) (ht : first.time = 0)
    (honly : ∀ i m, 1 ≤ i → tr.moments[i]? = some m → m.time ≠ 0)
    (hfuel : tr.moments.length ≤ fuel) :
    BasicTrajectory.get lerp langle fuel tr 0 = Except.ok first := by
  have hpos : ∀ i m, 1 ≤ i → tr.moments[i]? = some m → 0 < m.time := by
    intro i m hi hm
    have hle : first.time ≤ m.time := pairwise_at hsorted h0 hm (by omega)
    rw [ht] at hle
    exact lt_of_le_of_ne hle (Ne.symm (honly i m hi hm))
  have hne : tr.moments ≠ [] := by
    intro hnil
    rw [hnil] at h0
    simp at h0
  have hl := last_at hne
  rcases le_or_lt (tr.moments.getLast hne).time 0 with hge | hlt
  · rw [get_of_branch (getBranch_clamped fuel hl hge)]
    have hidx : tr.moments.length - 1 = 0 := by
      by_contra hcon
      exact absurd (hpos _ _ (by omega) hl) (not_lt.2 hge)
    rw [hidx] at hl
    rw [same_at hl h0 rfl]
    rfl
  · obtain ⟨b, hb, hpost⟩ := getBranch_post hl hlt hfuel
    rw [get_of_branch hb]
    cases b with
    | clamped m => exact hpost.elim
    | stored mid m =>
      obtain ⟨hm, hcase⟩ := hpost
      have hmid : mid = 0 := by
        rcases hcase with heq | ⟨hz, _⟩
        · by_contra hcon
          exact honly mid m (by omega) hm heq
        · exact hz
      subst hmid
      rw [same_at hm h0 rfl]
      rfl
    | interp mid m1 m2 =>
      obtain ⟨hmid, hm1, _, hlt1, _⟩ := hpost
      exact absurd (hpos mid m1 hmid hm1) (not_lt.2 hlt1.le)

/-- C5 (amended): with strictly increasing times, `get(moments[k].time)`
either returns the stored sample `moments[k]` (at the clamp or at the
stored-sample return), or, for `k ≥ 2`, takes the interpolation branch on the
pair `[k-1, k]` with fraction exactly 1 and returns the moment synthesized
there. -/
theorem get_at_sample_time (lerp langle : α → α → α → α) (fuel : Nat)
    (tr : BasicTrajectory α) (k : Nat) (mk : BasicMoment α)
    (hsorted : StrictlyIncreasing tr.moments) (hk : tr.moments[k]? = some mk)
    (hfuel : tr.moments.length ≤ fuel) :
    ((getBranch fuel tr mk.time = Except.ok (Branch.clamped mk) ∨
        getBranch fuel tr mk.time = Except.ok (Branch.stored k mk)) ∧
      BasicTrajectory.get lerp langle fuel tr mk.time = Except.ok mk) ∨
    (∃ p, 2 ≤ k ∧ tr.moments[k - 1]? = some p ∧
      getBranch fuel tr mk.time = Except.ok (Branch.interp (k - 1) p mk) ∧
      fraction p mk mk.time = 1 ∧
      BasicTrajectory.get lerp langle fuel tr mk.time = Except.ok
        { dist := lerp p.dist mk.dist 1
          vel := lerp p.vel mk.vel 1
          accel := lerp p.accel mk.accel 1
          heading := langle p.heading mk.heading 1
          time := mk.time
          init_facing := tr.init_facing }) := by
  have hne : tr.moments ≠ [] := by
    intro hnil
    rw [hnil] at hk
    simp at hk
  have hl := last_at hne
  rcases le_or_lt (tr.moments.getLast hne).time mk.time with hge | hlt
  · left
    have hidx : tr.moments.length - 1 ≤ k := strict_index_le hsorted hl hk hge
    have hkl := lt_of_getElem? hk
    have hlast : tr.moments.getLast hne = mk := same_at hl hk (by omega)
    have hb := getBranch_clamped fuel hl hge
    rw [hlast] at hb
    exact ⟨Or.inl hb, by rw [get_of_branch hb]; rfl⟩
  · obtain ⟨b, hb, hpost⟩ := getBranch_post hl hlt hfuel
    cases b with
    | clamped m => exact hpost.elim
    | stored mid m =>
      left
      obtain ⟨hm, hcase⟩ := hpost
      have hmid : mid = k := by
        rcases hcase with heq | ⟨hz, e, me, he, hme, hlte⟩
        · have h1 := strict_index_le hsorted hm hk heq.le
          have h2 := strict_index_le hsorted hk hm heq.ge
          omega
        · have h1 : k < e := strict_index_lt hsorted hk hme hlte
          omega
      subst hmid
      have hmk : m = mk := same_at hm hk rfl
      subst hmk
      exact ⟨Or.inr hb, by rw [get_of_branch hb]; rfl⟩
    | interp mid m1 m2 =>
      right
      obtain ⟨hmid, hm1, hm2, hlt1, hle2⟩ := hpost
      have h1 : mid < k := strict_index_lt hsorted hm1 hk hlt1
      have h2 : k ≤ mid + 1 := strict_index_le hsorted hk hm2 hle2
      have hkm : mid = k - 1 := by omega
      subst hkm
      have hm2k : m2 = mk := same_at hm2 hk (by omega)
      subst hm2k
      have hf : fraction m1 m2 m2.time = 1 := by
        unfold fraction
        exact div_self (ne_of_gt (sub_pos.2 hlt1))
      refine ⟨m1, by omega, hm1, hb, hf, ?_⟩
      rw [get_of_branch hb]
      simp only [returned, synthesize, hf]

/-- C9: for a non-empty moment vector and any query time, `get` returns a
moment as soon as the iteration budget reaches `moments.size()`; and the loop
starts in the invariant `start ≤ end`, `moments[end].time > time`,
`start = 0 ∨ moments[start].time < time`, every pass through the body from a
state in the invariant either returns or moves to a state in the invariant
with `end - start` strictly smaller.  No ordering of the times is assumed. -/
theorem get_terminates (lerp langle : α → α → α → α) (tr : BasicTrajectory α)
    (time : α) (hne : tr.moments ≠ []) :
    (∀ fuel, tr.moments.length ≤ fuel →
        ∃ m, BasicTrajectory.get lerp langle fuel tr time = Except.ok m) ∧
      (time < (tr.moments.getLast hne).time →
        Inv tr.moments time 0 (tr.moments.length - 1)) ∧
      (∀ s e, Inv tr.moments time s e →
        (∃ b, body tr.moments time s e = Except.ok (Iter.ret b)) ∨
        (∃ s1 e1, body tr.moments time s e = Except.ok (Iter.cont s1 e1) ∧
          Inv tr.moments time s1 e1 ∧ e1 - s1 < e - s)) := by
  have hl := last_at hne
  refine ⟨?_, fun h => inv_init hl h, ?_⟩
  · intro fuel hfuel
    rcases le_or_lt (tr.moments.getLast hne).time time with hge | hlt
    · exact ⟨_, get_of_branch (getBranch_clamped fuel hl hge)⟩
    · obtain ⟨b, hb, _⟩ := getBranch_post hl hlt hfuel
      exact ⟨_, get_of_branch hb⟩
  · intro s e hinv
    rcases body_spec hinv with ⟨b, hb, _⟩ | h
    · exact Or.inl ⟨b, hb⟩
    · exact Or.inr h

theorem build_length (cos sin : α → α) (w : List (Waypoint α)) (alpha : α) :
    (QuinticPath.build cos sin w alpha).length = w.length - 1 := by
  simp [QuinticPath.build]

theorem build_at (cos sin : α → α) (w : List (Waypoint α)) (alpha : α)
    {i : Nat} {a b : Waypoint α} (ha : w[i]? = some a) (hb : w[i + 1]? = some b) :
    (QuinticPath.build cos sin w alpha)[i]? =
      some (QuinticPath.segment cos sin alpha a b) := by
  rcases List.getElem?_eq_some.1 ha with ⟨hi, rfl⟩
  rcases List.getElem?_eq_some.1 hb with ⟨hj, rfl⟩
  rw [List.getElem?_eq_some]
  refine ⟨by rw [build_length]; omega, ?_⟩
  simp [QuinticPath.build]

theorem new_of_two_le (cos sin : α → α) (w : List (Waypoint α)) (alpha : α)
    (hn : 2 ≤ w.length) :
    QuinticPath.new cos sin w alpha = Except.ok
      { waypoints := w
        alpha := alpha
        type := PathType.CUBIC_HERMITE
        segments := QuinticPath.build cos sin w alpha } := by
  simp only [QuinticPath.new, if_neg (show ¬ w.length < 2 by omega)]

theorem new_of_lt_two (cos sin : α → α) (w : List (Waypoint α)) (alpha : α)
    (hn : w.length < 2) :
    QuinticPath.new cos sin w alpha =
      Except.error (Exn.runtime_error "Not enough waypoints") := by
  simp only [QuinticPath.new, if_pos hn]

/-! ## The claims -/

/-- C6: the `QuinticPath` constructor throws "Not enough waypoints" exactly when
the waypoint list has fewer than 2 elements; with 2 or more it returns a path,
and when it throws no path is returned. -/
theorem quinticPath_fails_iff (cos sin : α → α) (w : List (Waypoint α)) (alpha : α) :
    (QuinticPath.new cos sin w alpha =
        Except.error (Exn.runtime_error "Not enough waypoints") ↔ w.length < 2) ∧
      (2 ≤ w.length ↔ ∃ p, QuinticPath.new cos sin w alpha = Except.ok p) ∧
      (w.length < 2 → ∀ p, QuinticPath.new cos sin w alpha ≠ Except.ok p) := by
  refine ⟨⟨?_, new_of_lt_two cos sin w alpha⟩, ⟨?_, ?_⟩, ?_⟩
  · intro h
    by_contra hcon
    rw [new_of_two_le cos sin w alpha (by omega)] at h
    cases h
  · intro h
    exact ⟨_, new_of_two_le cos sin w alpha h⟩
  · rintro ⟨p, hp⟩
    by_contra hcon
    rw [new_of_lt_two cos sin w alpha (by omega)] at hp
    cases hp
  · intro h p hp
    rw [new_of_lt_two cos sin w alpha h] at hp
    cases hp

/-- C7: for `n ≥ 2` waypoints the constructor returns a path with exactly
`n - 1` segments; segment `i` is built from the positions of `w[i]` and
`w[i+1]`, the tangents `(cos(heading) * alpha, sin(heading) * alpha)` of the two
waypoints and zero second derivatives; hence the end position and end tangent
of segment `i` are the start position and start tangent of segment `i + 1`. -/
theorem quinticPath_segments (cos sin : α → α) (w : List (Waypoint α)) (alpha : α)
    (hn : 2 ≤ w.length) :
    ∃ p, QuinticPath.new cos sin w alpha = Except.ok p ∧
      p.segments.length = w.length - 1 ∧
      (∀ i a b, w[i]? = some a → w[i + 1]? = some b →
        p.segments[i]? = some
          { p0 := { x := a.x, y := a.y }
            p1 := { x := b.x, y := b.y }
            v0 := { x := cos a.heading * alpha, y := sin a.heading * alpha }
            v1 := { x := cos b.heading * alpha, y := sin b.heading * alpha }
            a0 := { x := 0, y := 0 }
            a1 := { x := 0, y := 0 } }) ∧
      (∀ i s t, p.segments[i]? = some s → p.segments[i + 1]? = some t →
        s.p1 = t.p0 ∧ s.v1 = t.v0) := by
  refine ⟨_, new_of_two_le cos sin w alpha hn, build_length cos sin w alpha, ?_, ?_⟩
  · intro i a b ha hb
    exact build_at cos sin w alpha ha hb
  · intro i s t hs ht
    have hi1 : i + 1 < w.length - 1 := by
      have := lt_of_getElem? ht
      rw [build_length] at this
      exact this
    obtain ⟨a, ha⟩ := getElem?_of_lt (show i < w.length by omega)
    obtain ⟨b, hb⟩ := getElem?_of_lt (show i + 1 < w.length by omega)
    obtain ⟨c, hc⟩ := getElem?_of_lt (show i + 1 + 1 < w.length by omega)
    have hs1 := build_at cos sin w alpha ha hb
    have ht1 := build_at cos sin w alpha hb hc
    rw [same_at hs hs1 rfl, same_at ht ht1 rfl]
    exact ⟨rfl, rfl⟩

/-- C8 (amended): the constructor does not examine `alpha`.  For every waypoint
list of length at least 2 and every `alpha ≤ 0` it returns a path, which stores
that `alpha` and has `n - 1` segments. -/
theorem quinticPath_accepts_nonpositive_alpha (cos sin : α → α)
    (w : List (Waypoint α)) (alpha : α) (hn : 2 ≤ w.length) (ha : alpha ≤ 0) :
    ∃ p, QuinticPath.new cos sin w alpha = Except.ok p ∧ p.alpha = alpha ∧
      p.alpha ≤ 0 ∧ p.waypoints = w ∧ p.segments.length = w.length - 1 :=
  ⟨_, new_of_two_le cos sin w alpha hn, rfl, ha, rfl, build_length cos sin w alpha⟩

/-! ## Evaluations at concrete inputs -/

/-- C1 at the specification example: `get(5)` with total time 4 returns the
last moment. -/
theorem get_clamps_to_last_witness :
    total_time specExample = Except.ok 4 ∧
      BasicTrajectory.get lerp lerp 0 specExample 5 = Except.ok ⟨10, 0, -1, 0, 4, 0⟩ :=
  get_clamps_to_last lerp lerp 0 specExample 5 (by simp [specExample])
    (by norm_num [specExample])

/-- C2 at the specification example: `get(3)` interpolates between the second
and the third moment. -/
theorem get_interpolates_bracket_witness :
    getBranch 3 specExample 3 =
        Except.ok (Branch.interp 1 ⟨5, 2, 0, 0, 2, 0⟩ ⟨10, 0, -1, 0, 4, 0⟩) ∧
      BasicTrajectory.get lerp lerp 3 specExample 3 = Except.ok
        { dist := lerp 5 10 ((3 - 2) / (4 - 2))
          vel := lerp 2 0 ((3 - 2) / (4 - 2))
          accel := lerp 0 (-1) ((3 - 2) / (4 - 2))
          heading := lerp 0 0 ((3 - 2) / (4 - 2))
          time := 3
          init_facing := 0 } :=
  get_interpolates_bracket lerp lerp 3 specExample 3 1 ⟨5, 2, 0, 0, 2, 0⟩ ⟨10, 0, -1, 0, 4, 0⟩
    (by norm_num [StrictlyIncreasing, specExample]) (by simp [specExample]) (by decide)
    (by simp [specExample]) (by simp [specExample]) (by simp [specExample])
    (by norm_num) (by norm_num) (by simp [specExample])

/-- C3: on the specification example `get(1.0)` ends at `mid = 0` and returns
the stored first moment `(d=0, v=0, a=1, h=0, t=0)`, whatever `lerp` and
`langle` are; it does not return the interpolated moment
`(d=2.5, v=1.0, a=0.5, h=0, t=1.0)`. -/
theorem specExample_get_one (lerp1 langle1 : ℚ → ℚ → ℚ → ℚ) :
    getBranch 3 specExample 1 = Except.ok (Branch.stored 0 ⟨0, 0, 1, 0, 0, 0⟩) ∧
      BasicTrajectory.get lerp1 langle1 3 specExample 1 = Except.ok ⟨0, 0, 1, 0, 0, 0⟩ ∧
      BasicTrajectory.get lerp1 langle1 3 specExample 1 ≠
        Except.ok ⟨5 / 2, 1, 1 / 2, 0, 1, 0⟩ := by
  have hb : getBranch 3 specExample 1 = Except.ok (Branch.stored 0 ⟨0, 0, 1, 0, 0, 0⟩) := by
    norm_num [getBranch, total_time, readAt, specExample, loop, body]
  refine ⟨hb, ?_, ?_⟩
  · rw [get_of_branch hb]
    rfl
  · rw [get_of_branch hb]
    intro h
    have h2 := congrArg (fun r => r.toOption.map BasicMoment.time) h
    norm_num [returned, Except.toOption] at h2

/-- C4 fails with tied times: in `tiedStart` the times are non-decreasing and
the first moment has time 0, yet `get(0)` returns the second moment. -/
theorem tiedStart_get_zero :
    NonDecreasing tiedStart.moments ∧
      tiedStart.moments[0]? = some ⟨0, 0, 1, 0, 0, 0⟩ ∧
      BasicTrajectory.get lerp lerp 3 tiedStart 0 = Except.ok ⟨1, 1, 1, 0, 0, 0⟩ ∧
      BasicTrajectory.get lerp lerp 3 tiedStart 0 ≠ Except.ok ⟨0, 0, 1, 0, 0, 0⟩ := by
  have hb : getBranch 3 tiedStart 0 = Except.ok (Branch.stored 1 ⟨1, 1, 1, 0, 0, 0⟩) := by
    norm_num [getBranch, total_time, readAt, tiedStart, loop, body]
  refine ⟨by norm_num [NonDecreasing, tiedStart], by simp [tiedStart], ?_, ?_⟩
  · rw [get_of_branch hb]
    rfl
  · rw [get_of_branch hb]
    intro h
    have h2 := congrArg (fun r => r.toOption.map BasicMoment.dist) h
    norm_num [returned, Except.toOption] at h2

/-- C4 (amended) at the specification example. -/
theorem get_zero_returns_first_witness :
    BasicTrajectory.get lerp lerp 3 specExample 0 = Except.ok ⟨0, 0, 1, 0, 0, 0⟩ :=
  get_zero_returns_first lerp lerp 3 specExample ⟨0, 0, 1, 0, 0, 0⟩
    (by norm_num [NonDecreasing, specExample]) (by simp [specExample]) rfl
    (by
      intro i m hi hm
      match i, hi, hm with
      | 1, _, hm =>
        simp [specExample] at hm
        subst hm
        norm_num
      | 2, _, hm =>
        simp [specExample] at hm
        subst hm
        norm_num
      | n + 3, _, hm => simp [specExample] at hm)
    (by simp [specExample])

/-- C5 fails on `fourSamples`: the times are strictly increasing, and
`get(moments[2].time)` returns at the interpolation branch, on the pair
`[1, 2]`, not at the stored-sample return. -/
theorem fourSamples_get_two :
    StrictlyIncreasing fourSamples.moments ∧
      fourSamples.moments[2]? = some ⟨2, 2, 1, 0, 2, 0⟩ ∧
      getBranch 4 fourSamples 2 =
        Except.ok (Branch.interp 1 ⟨1, 1, 1, 0, 1, 0⟩ ⟨2, 2, 1, 0, 2, 0⟩) ∧
      getBranch 4 fourSamples 2 ≠ Except.ok (Branch.stored 2 ⟨2, 2, 1, 0, 2, 0⟩) ∧
      BasicTrajectory.get lerp lerp 4 fourSamples 2 =
        Except.ok (synthesize lerp lerp 0 ⟨1, 1, 1, 0, 1, 0⟩ ⟨2, 2, 1, 0, 2, 0⟩ 2) := by
  have hb : getBranch 4 fourSamples 2 =
      Except.ok (Branch.interp 1 ⟨1, 1, 1, 0, 1, 0⟩ ⟨2, 2, 1, 0, 2, 0⟩) := by
    norm_num [getBranch, total_time, readAt, fourSamples, loop, body]
  refine ⟨by norm_num [StrictlyIncreasing, fourSamples], by simp [fourSamples], hb, ?_, ?_⟩
  · rw [hb]
    intro h
    cases h
  · rw [get_of_branch hb]
    rfl

/-- C5 (amended) at `fourSamples`, `k = 2`. -/
theorem get_at_sample_time_witness :
    ((getBranch 4 fourSamples 2 = Except.ok (Branch.clamped ⟨2, 2, 1, 0, 2, 0⟩) ∨
        getBranch 4 fourSamples 2 = Except.ok (Branch.stored 2 ⟨2, 2, 1, 0, 2, 0⟩)) ∧
      BasicTrajectory.get lerp lerp 4 fourSamples 2 = Except.ok ⟨2, 2, 1, 0, 2, 0⟩) ∨
    (∃ p, 2 ≤ 2 ∧ fourSamples.moments[2 - 1]? = some p ∧
      getBranch 4 fourSamples 2 = Except.ok (Branch.interp (2 - 1) p ⟨2, 2, 1, 0, 2, 0⟩) ∧
      fraction p ⟨2, 2, 1, 0, 2, 0⟩ 2 = 1 ∧
      BasicTrajectory.get lerp lerp 4 fourSamples 2 = Except.ok
        { dist := lerp p.dist 2 1
          vel := lerp p.vel 2 1
          accel := lerp p.accel 1 1
          heading := lerp p.heading 0 1
          time := 2
          init_facing := 0 }) :=
  get_at_sample_time lerp lerp 4 fourSamples 2 ⟨2, 2, 1, 0, 2, 0⟩
    (by norm_num [StrictlyIncreasing, fourSamples]) (by simp [fourSamples])
    (by simp [fourSamples])

/-- C7 at `straightLine` with `alpha = 5`: two segments, the second starting
where the first ends. -/
theorem quinticPath_segments_witness :
    ∃ p, QuinticPath.new cosAtZero sinAtZero straightLine 5 = Except.ok p ∧
      p.segments.length = 2 ∧
      p.segments[0]? = some
        { p0 := { x := 0, y := 0 }
          p1 := { x := 10, y := 0 }
          v0 := { x := cosAtZero 0 * 5, y := sinAtZero 0 * 5 }
          v1 := { x := cosAtZero 0 * 5, y := sinAtZero 0 * 5 }
          a0 := { x := 0, y := 0 }
          a1 := { x := 0, y := 0 } } := by
  obtain ⟨p, hp, hlen, hseg, _⟩ :=
    quinticPath_segments cosAtZero sinAtZero straightLine 5 (by simp [straightLine])
  exact ⟨p, hp, hlen, hseg 0 ⟨0, 0, 0⟩ ⟨10, 0, 0⟩ (by simp [straightLine])
    (by simp [straightLine])⟩

/-- C8 fails on `straightLine` with `alpha = -1`: the list has 3 waypoints,
`alpha ≤ 0`, and the constructor returns a path whose tangents are scaled by
`-1`. -/
theorem straightLine_negative_alpha :
    2 ≤ straightLine.length ∧ (-1 : ℚ) ≤ 0 ∧
      QuinticPath.new cosAtZero sinAtZero straightLine (-1) = Except.ok
        { waypoints := straightLine
          alpha := -1
          type := PathType.CUBIC_HERMITE
          segments :=
            [⟨⟨0, 0⟩, ⟨10, 0⟩, ⟨-1, 0⟩, ⟨-1, 0⟩, ⟨0, 0⟩, ⟨0, 0⟩⟩,
             ⟨⟨10, 0⟩, ⟨20, 0⟩, ⟨-1, 0⟩, ⟨-1, 0⟩, ⟨0, 0⟩, ⟨0, 0⟩⟩] } := by
  refine ⟨by simp [straightLine], by norm_num, ?_⟩
  norm_num [QuinticPath.new, QuinticPath.build, QuinticPath.segment, straightLine,
    Waypoint.toVec2D, cosAtZero, sinAtZero]

/-- C8 (amended) at `straightLine` with `alpha = -1`. -/
theorem quinticPath_accepts_nonpositive_alpha_witness :
    ∃ p, QuinticPath.new cosAtZero sinAtZero straightLine (-1) = Except.ok p ∧
      p.alpha = -1 ∧ p.alpha ≤ 0 ∧ p.waypoints = straightLine ∧
      p.segments.length = 3 - 1 :=
  quinticPath_accepts_nonpositive_alpha cosAtZero sinAtZero straightLine (-1)
    (by simp [straightLine]) (by norm_num)

/-- C9 at the specification example: `get(1)` returns with a budget of 3. -/
theorem get_terminates_witness :
    ∃ m, BasicTrajectory.get lerp lerp 3 specExample 1 = Except.ok m :=
  (get_terminates lerp lerp specExample 1 (by simp [specExample])).1 3
    (by simp [specExample])

end rpf
